import Mathlib

/-!
Verification of the notice subsystem of `psiphon/notice.go`.

The development embeds, as executable Lean functions:
  * `noticeReceiverWrite` — the body of `NoticeReceiver.Write` (byte-stream
    re-framing of newline-delimited records);
  * a JSON value type `Jval` with a marshaller (`marshal`, matching the
    output of Go `json.Marshal` for the values the emitter builds) and a
    parser (`parseJson`, matching Go `encoding/json` record decoding);
  * `outputNoticeObj` / `outputNoticeLine` — the envelope construction and
    serialization performed by `outputNotice`, and `noticeFallbackOutput`,
    its hand-built fallback record on serialization failure;
  * `decodeNoticeObject` / `GetNoticeTunnels` — decoding a raw record into
    `noticeObject` and the Tunnels count extraction.

Bytes are modelled at the level of Unicode code points (`Char`); a record is
its list of characters.
-/

/-- Characters standing for the bytes of a byte stream or record. -/
abbrev Chars := List Char

/-- Result of one `NoticeReceiver.Write` call: new buffer contents, the
records handed to the callback (in invocation order), the returned byte
count and the returned error. -/
structure WriteResult where
  buffer : Chars
  notices : List Chars
  n : Nat
  err : Option String
deriving DecidableEq

/-- Model of `NoticeReceiver.Write`: append the chunk to the buffer, look
for the first newline, and when one is found slice out the record before it,
advance the buffer past it and invoke the callback once with that record.
The code performs a single `bytes.Index` scan per call (no loop). -/
def noticeReceiverWrite (buffer p : Chars) : WriteResult :=
  let buf := buffer ++ p
  match buf.findIdx? (fun c => c = '\n') with
  | none => ⟨buf, [], p.length, none⟩
  | some index => ⟨buf.drop (index + 1), [buf.take index], p.length, none⟩

/-- Feed a sequence of chunks through `noticeReceiverWrite`, starting from a
given buffer, collecting every callback invocation in order. -/
def processWrites (buffer : Chars) : List Chars → Chars × List Chars
  | [] => (buffer, [])
  | p :: rest =>
    let w := noticeReceiverWrite buffer p
    let r := processWrites w.buffer rest
    (r.1, w.notices ++ r.2)

/-- C1: evaluating `NoticeReceiver.Write` at the failing input. A single
Write call whose chunk carries two newline-terminated records invokes the
callback only once, with the first record; the second record stays in the
buffer. The claim requires exactly two invocations for this call sequence. -/
theorem noticeReceiverWrite_single_call_two_records :
    processWrites [] [(("a\nb\n").data)] = ((("b\n").data), [(("a").data)]) := by
  rfl

/-- C7 counterexample: the claim quantifies over every receiver state, but a
reachable state whose buffer already holds a delimiter (here, the state after
writing the chunk consisting of records a and b) makes the next Write call
dispatch a record even though its chunk (a single byte c) contains no
delimiter byte. -/
theorem noticeReceiverWrite_noDelimiter_chunk_dispatches :
    (noticeReceiverWrite (noticeReceiverWrite [] (("a\nb\n").data)).buffer
      (("c").data)).notices = [(("b").data)] := by
  rfl

/-- C7 (amended): for every receiver state whose buffered bytes contain no
delimiter, a Write call with a chunk containing no delimiter produces zero
callback invocations and retains all bytes — the old buffer followed by the
chunk — for the next call, reporting the chunk fully consumed. -/
theorem noticeReceiverWrite_accumulates (buffer p : Chars)
    (hb : '\n' ∉ buffer) (hp : '\n' ∉ p) :
    noticeReceiverWrite buffer p = ⟨buffer ++ p, [], p.length, none⟩ := by
  have h : (buffer ++ p).findIdx? (fun c => c = '\n') = none := by
    rw [List.findIdx?_eq_none_iff]
    intro c hc
    rcases List.mem_append.mp hc with h1 | h1
    · simp only [decide_eq_false_iff_not]
      intro hcn; exact hb (hcn ▸ h1)
    · simp only [decide_eq_false_iff_not]
      intro hcn; exact hp (hcn ▸ h1)
  simp [noticeReceiverWrite, h]

/-- C7 witness: concrete delimiter-free buffer and chunk. -/
theorem noticeReceiverWrite_accumulates_witness :
    noticeReceiverWrite [('a')] [('b')] = ⟨[('a'), ('b')], [], 1, none⟩ :=
  noticeReceiverWrite_accumulates [('a')] [('b')] (by decide) (by decide)

/-- C8: `NoticeReceiver.Write` always returns the full chunk length and a nil
error, for every receiver state and every chunk including the empty one. -/
theorem noticeReceiverWrite_accepts_all (buffer p : Chars) :
    (noticeReceiverWrite buffer p).n = p.length ∧
      (noticeReceiverWrite buffer p).err = none := by
  rcases h : (buffer ++ p).findIdx? (fun c => c = '\n') with _ | i <;>
    simp only [noticeReceiverWrite, h] <;> exact ⟨trivial, trivial⟩

/-- C10: when the concatenation of the buffered bytes and the chunk starts
with the delimiter, the callback is invoked with the zero-length record:
empty records are dispatched, not skipped. -/
theorem noticeReceiverWrite_empty_record (buffer p : Chars)
    (h : (buffer ++ p).head? = some '\n') :
    (noticeReceiverWrite buffer p).notices = [[]] := by
  obtain ⟨t, ht⟩ : ∃ t, buffer ++ p = '\n' :: t := by
    cases hb : buffer ++ p with
    | nil => rw [hb] at h; simp at h
    | cons c t =>
      rw [hb] at h
      simp only [List.head?_cons, Option.some.injEq] at h
      exact ⟨t, by rw [h]⟩
  unfold noticeReceiverWrite
  rw [ht]
  simp [List.findIdx?_cons]

/-- C10 witness: an empty buffer receiving a chunk that is a lone newline. -/
theorem noticeReceiverWrite_empty_record_witness :
    (noticeReceiverWrite [] [('\n')]).notices = [[]] :=
  noticeReceiverWrite_empty_record [] [('\n')] (by decide)

/-- JSON values. The number case keeps the literal text of the number, as
Go's decoder defers numeric conversion to the target type. -/
inductive Jval where
  | null
  | bool (b : Bool)
  | num (lit : Chars)
  | str (s : Chars)
  | arr (elems : List Jval)
  | obj (members : List (Chars × Jval))

/-- Decimal digit character. -/
def digitChar (n : Nat) : Char := Char.ofNat (48 + n % 10)

/-- Lowercase hexadecimal digit character, as the Go marshaller uses. -/
def hexDigit (n : Nat) : Char :=
  if n % 16 < 10 then Char.ofNat (48 + n % 16) else Char.ofNat (87 + n % 16)

/-- Decimal digits of a natural number, most significant first. -/
def natLit (n : Nat) : Chars :=
  if _h : n < 10 then [digitChar n]
  else natLit (n / 10) ++ [digitChar (n % 10)]
decreasing_by exact Nat.div_lt_self (by omega) (by omega)

/-- Decimal literal of an integer, as Go formats an int. -/
def intLit (n : Int) : Chars :=
  if n < 0 then '-' :: natLit (-n).toNat else natLit n.toNat

/-- Go `json.Marshal` escaping of one character inside a string literal
(the default encoder, which also escapes the HTML characters and the line
separators U+2028 and U+2029). -/
def escChar (c : Char) : Chars :=
  if c = '"' then ['\\', '"']
  else if c = '\\' then ['\\', '\\']
  else if c = '\n' then ['\\', 'n']
  else if c = '\r' then ['\\', 'r']
  else if c = '\t' then ['\\', 't']
  else if c = '<' ∨ c = '>' ∨ c = '&' ∨ c.toNat < 32 then
    ['\\', 'u', '0', '0', hexDigit (c.toNat / 16), hexDigit (c.toNat % 16)]
  else if c.toNat = 8232 ∨ c.toNat = 8233 then
    ['\\', 'u', '2', '0', '2', hexDigit (c.toNat % 16)]
  else [c]

/-- Escape every character of a string body. -/
def escList : Chars → Chars
  | [] => []
  | c :: r => escChar c ++ escList r

/-- Serialized JSON string literal with its surrounding quotes. -/
def quoteStr (s : Chars) : Chars := '"' :: (escList s ++ ['"'])

mutual
/-- Compact serialization of a JSON value, as Go `json.Marshal` emits it.
Object members are emitted in list order; the emitter model sorts them at
construction, the way Go sorts map keys while marshalling. -/
def marshal : Jval → Chars
  | .null => ['n', 'u', 'l', 'l']
  | .bool b => if b then ['t', 'r', 'u', 'e'] else ['f', 'a', 'l', 's', 'e']
  | .num lit => lit
  | .str s => quoteStr s
  | .arr [] => ['[', ']']
  | .arr (v :: vs) => '[' :: (marshal v ++ marshalArrTail vs)
  | .obj [] => ['\x7b', '\x7d']
  | .obj ((k, v) :: ms) =>
    '\x7b' :: (quoteStr k ++ ':' :: (marshal v ++ marshalObjTail ms))
termination_by v => sizeOf v
/-- Array elements after the first, each preceded by a comma, then the
closing bracket. -/
def marshalArrTail : List Jval → Chars
  | [] => [']']
  | v :: vs => ',' :: (marshal v ++ marshalArrTail vs)
termination_by vs => sizeOf vs
/-- Object members after the first, each preceded by a comma, then the
closing brace. -/
def marshalObjTail : List (Chars × Jval) → Chars
  | [] => ['\x7d']
  | (k, v) :: ms => ',' :: (quoteStr k ++ ':' :: (marshal v ++ marshalObjTail ms))
termination_by ms => sizeOf ms
end

/-- Lexicographic comparison of keys by code point, which coincides with the
byte-wise UTF-8 comparison Go's sort uses on map keys. -/
def charsLE : Chars → Chars → Bool
  | [], _ => true
  | _ :: _, [] => false
  | a :: as, b :: bs => if a < b then true else if b < a then false else charsLE as bs

/-- Insert one member into a key-sorted member list. -/
def insEntry (m : Chars × Jval) : List (Chars × Jval) → List (Chars × Jval)
  | [] => [m]
  | q :: r => if charsLE m.1 q.1 then m :: q :: r else q :: insEntry m r

/-- Sort members by key, modelling Go marshalling a map. -/
def sortEntries (l : List (Chars × Jval)) : List (Chars × Jval) :=
  l.foldr insEntry []

theorem insEntry_perm (m : Chars × Jval) (l : List (Chars × Jval)) :
    (insEntry m l).Perm (m :: l) := by
  induction l with
  | nil => simp [insEntry]
  | cons q r ih =>
    by_cases h : charsLE m.1 q.1
    · simp [insEntry, h]
    · simp only [insEntry, h, if_false]
      exact (ih.cons q).trans (List.Perm.swap m q r)

theorem sortEntries_perm (l : List (Chars × Jval)) : (sortEntries l).Perm l := by
  induction l with
  | nil => simp [sortEntries]
  | cons m r ih => exact (insEntry_perm m (sortEntries r)).trans (ih.cons m)

/-- A Go `interface{}` value appearing in the variadic args of
`outputNotice`; the notice call sites pass strings and ints. -/
inductive GoIf where
  | str (s : Chars)
  | int (n : Int)

/-- The JSON value a Go arg marshals to. -/
def goIfToJval : GoIf → Jval
  | .str s => .str s
  | .int n => .num (intLit n)

/-- Map assignment `noticeData[name] = value`: overwrite the binding when
the key is present, otherwise add it. -/
def insertOv (l : List (Chars × Jval)) (k : Chars) (v : Jval) :
    List (Chars × Jval) :=
  match l with
  | [] => [(k, v)]
  | (k0, v0) :: r => if k0 = k then (k, v) :: r else (k0, v0) :: insertOv r k v

/-- The arg-pairing loop of `outputNotice`: consume args two at a time; the
name must be a string (otherwise the pair is skipped); a dangling trailing
arg is ignored. -/
def buildNoticeData : List GoIf → List (Chars × Jval) → List (Chars × Jval)
  | name :: value :: rest, acc =>
    match name with
    | .str s => buildNoticeData rest (insertOv acc s (goIfToJval value))
    | _ => buildNoticeData rest acc
  | _, acc => acc

/-- The envelope `outputNotice` builds — noticeType, showUser, data,
timestamp — with members sorted by key the way Go marshals a map. -/
def outputNoticeObj (noticeType : Chars) (showUser : Bool) (args : List GoIf)
    (timestamp : Chars) : Jval :=
  .obj (sortEntries
    [((("noticeType").data), .str noticeType),
     ((("showUser").data), .bool showUser),
     ((("data").data), .obj (sortEntries (buildNoticeData args []))),
     ((("timestamp").data), .str timestamp)])

/-- The line `outputNotice` writes on the normal path: the marshalled
envelope plus the trailing newline the logger appends. -/
def outputNoticeLine (noticeType : Chars) (showUser : Bool) (args : List GoIf)
    (timestamp : Chars) : Chars :=
  marshal (outputNoticeObj noticeType showUser args timestamp) ++ ['\n']

/-- The hand-built fallback record `outputNotice` writes when serialization
fails, with the error text interpolated verbatim, without escaping. -/
def noticeFallbackOutput (msg : Chars) : Chars :=
  (("\x7b\"Alert\":\x7b\"message\":\"").data) ++ msg ++ (("\"\x7d\x7d").data)

/-- JSON whitespace accepted by the Go scanner. -/
def isWs (c : Char) : Bool :=
  c == ' ' || c == '\t' || c == '\n' || c == '\r'

/-- Drop leading JSON whitespace. -/
def skipWs : Chars → Chars
  | [] => []
  | c :: r => if isWs c then skipWs r else c :: r

/-- Numeric value of a hexadecimal digit, case-insensitive. -/
def hexVal (c : Char) : Option Nat :=
  if '0' ≤ c ∧ c ≤ '9' then some (c.toNat - 48)
  else if 'a' ≤ c ∧ c ≤ 'f' then some (c.toNat - 87)
  else if 'A' ≤ c ∧ c ≤ 'F' then some (c.toNat - 55)
  else none

/-- Value of four hexadecimal digits. -/
def hex4 (a b c d : Char) : Option Nat :=
  match hexVal a, hexVal b, hexVal c, hexVal d with
  | some va, some vb, some vc, some vd =>
    some (((va * 16 + vb) * 16 + vc) * 16 + vd)
  | _, _, _, _ => none

/-- The Unicode replacement character Go substitutes for invalid surrogate
escapes. -/
def replChar : Char := Char.ofNat 65533

/-- Look ahead for a low-surrogate escape: when the input starts with a
backslash-u escape denoting a low surrogate, return its value (the six
escape characters are consumed by the caller via drop). -/
def lowSurrogateEscape : Chars → Option Nat
  | '\\' :: 'u' :: a :: b :: c :: d :: _ =>
    match hex4 a b c d with
    | some l => if 56320 ≤ l ∧ l ≤ 57343 then some l else none
    | none => none
  | _ => none

mutual
/-- Parse the body of a JSON string after its opening quote, undoing escapes
exactly as Go's unquote does (including surrogate pairs and the replacement
character for invalid surrogates) and rejecting raw control characters.
Returns the decoded body and the input after the closing quote. The fuel
only serves termination: every step consumes at least one character, so the
call sites, which pass more fuel than the input length, never exhaust it. -/
def parseStrBody : Nat → Chars → Option (Chars × Chars)
  | 0, _ => none
  | _ + 1, [] => none
  | f + 1, c :: r =>
    if c = '"' then some ([], r)
    else if c = '\\' then parseEsc f r
    else if c.toNat < 32 then none
    else (parseStrBody f r).map (fun p => (c :: p.1, p.2))
/-- Parse one escape sequence (the input starts after the backslash) and then
the rest of the string body. -/
def parseEsc : Nat → Chars → Option (Chars × Chars)
  | 0, _ => none
  | _ + 1, [] => none
  | f + 1, e :: r =>
    if e = '"' then (parseStrBody f r).map (fun p => ('"' :: p.1, p.2))
    else if e = '\\' then (parseStrBody f r).map (fun p => ('\\' :: p.1, p.2))
    else if e = '/' then (parseStrBody f r).map (fun p => ('/' :: p.1, p.2))
    else if e = 'b' then (parseStrBody f r).map (fun p => ('\x08' :: p.1, p.2))
    else if e = 'f' then (parseStrBody f r).map (fun p => ('\x0c' :: p.1, p.2))
    else if e = 'n' then (parseStrBody f r).map (fun p => ('\n' :: p.1, p.2))
    else if e = 'r' then (parseStrBody f r).map (fun p => ('\r' :: p.1, p.2))
    else if e = 't' then (parseStrBody f r).map (fun p => ('\t' :: p.1, p.2))
    else if e = 'u' then
      match r with
      | a :: b :: c :: d :: r2 =>
        match hex4 a b c d with
        | none => none
        | some h =>
          if 55296 ≤ h ∧ h ≤ 56319 then
            match lowSurrogateEscape r2 with
            | some l =>
              (parseStrBody f (r2.drop 6)).map (fun p =>
                (Char.ofNat (65536 + (h - 55296) * 1024 + (l - 56320)) :: p.1, p.2))
            | none => (parseStrBody f r2).map (fun p => (replChar :: p.1, p.2))
          else if 56320 ≤ h ∧ h ≤ 57343 then
            (parseStrBody f r2).map (fun p => (replChar :: p.1, p.2))
          else (parseStrBody f r2).map (fun p => (Char.ofNat h :: p.1, p.2))
      | _ => none
    else none
end

/-- Longest prefix of decimal digits. -/
def takeDigits : Chars → Chars × Chars
  | [] => ([], [])
  | c :: r =>
    if c.isDigit then (c :: (takeDigits r).1, (takeDigits r).2)
    else ([], c :: r)

/-- Integer part of a JSON number: a single zero, or a nonzero digit
followed by digits. -/
def lexIntPart : Chars → Option (Chars × Chars)
  | [] => none
  | c :: r =>
    if c = '0' then some (['0'], r)
    else if c.isDigit then some (c :: (takeDigits r).1, (takeDigits r).2)
    else none

/-- Optional fraction part of a JSON number. -/
def lexFrac : Chars → Option (Chars × Chars)
  | [] => some ([], [])
  | c :: r =>
    if c = '.' then
      if (takeDigits r).1 = [] then none
      else some ('.' :: (takeDigits r).1, (takeDigits r).2)
    else some ([], c :: r)

/-- Exponent digits after the e, with an optional sign. -/
def lexExpAfterE (e : Char) : Chars → Option (Chars × Chars)
  | [] => none
  | c :: r =>
    if c = '+' ∨ c = '-' then
      if (takeDigits r).1 = [] then none
      else some (e :: c :: (takeDigits r).1, (takeDigits r).2)
    else
      if (takeDigits (c :: r)).1 = [] then none
      else some (e :: (takeDigits (c :: r)).1, (takeDigits (c :: r)).2)

/-- Optional exponent part of a JSON number. -/
def lexExp : Chars → Option (Chars × Chars)
  | [] => some ([], [])
  | c :: r =>
    if c = 'e' ∨ c = 'E' then lexExpAfterE c r
    else some ([], c :: r)

/-- Unsigned JSON number literal: integer part, optional fraction, optional
exponent. -/
def lexNumBody (s : Chars) : Option (Chars × Chars) :=
  match lexIntPart s with
  | none => none
  | some (ip, s2) =>
    match lexFrac s2 with
    | none => none
    | some (fp, s3) =>
      match lexExp s3 with
      | none => none
      | some (ep, s4) => some (ip ++ fp ++ ep, s4)

/-- Lex one JSON number literal per the Go scanner grammar. -/
def lexNumber : Chars → Option (Chars × Chars)
  | [] => none
  | c :: r =>
    if c = '-' then
      match lexNumBody r with
      | some (lit, rest) => some ('-' :: lit, rest)
      | none => none
    else lexNumBody (c :: r)

mutual
/-- Parse one JSON value (after optional leading whitespace), per the Go
scanner. The fuel argument only bounds nesting recursion; callers pass more
fuel than the input length, which a successful parse can never exhaust,
since every nested value consumes at least one character first. -/
def parseVal : Nat → Chars → Option (Jval × Chars)
  | 0, _ => none
  | f + 1, s =>
    match skipWs s with
    | [] => none
    | c :: r =>
      if c = 'n' then
        match r with
        | 'u' :: 'l' :: 'l' :: r2 => some (.null, r2)
        | _ => none
      else if c = 't' then
        match r with
        | 'r' :: 'u' :: 'e' :: r2 => some (.bool true, r2)
        | _ => none
      else if c = 'f' then
        match r with
        | 'a' :: 'l' :: 's' :: 'e' :: r2 => some (.bool false, r2)
        | _ => none
      else if c = '"' then
        (parseStrBody (r.length + 1) r).map (fun p => (.str p.1, p.2))
      else if c = '-' ∨ c.isDigit then
        (lexNumber (c :: r)).map (fun p => (.num p.1, p.2))
      else if c = '[' then
        match skipWs r with
        | ']' :: r2 => some (.arr [], r2)
        | _ =>
          match parseVal f r with
          | none => none
          | some (v, r2) =>
            match parseArrTail f r2 with
            | none => none
            | some (vs, r3) => some (.arr (v :: vs), r3)
      else if c = '\x7b' then
        match skipWs r with
        | '\x7d' :: r2 => some (.obj [], r2)
        | _ =>
          match parseMember f r with
          | none => none
          | some (m, r2) =>
            match parseObjTail f r2 with
            | none => none
            | some (ms, r3) => some (.obj (m :: ms), r3)
      else none
/-- Parse one object member: key string, colon, value. -/
def parseMember : Nat → Chars → Option ((Chars × Jval) × Chars)
  | 0, _ => none
  | f + 1, s =>
    match skipWs s with
    | [] => none
    | c :: r =>
      if c = '"' then
        match parseStrBody (r.length + 1) r with
        | none => none
        | some (k, r2) =>
          match skipWs r2 with
          | ':' :: r3 =>
            match parseVal f r3 with
            | none => none
            | some (v, r4) => some ((k, v), r4)
          | _ => none
      else none
/-- Parse the array elements after the first: either the closing bracket, or
a comma followed by a value and more elements. -/
def parseArrTail : Nat → Chars → Option (List Jval × Chars)
  | 0, _ => none
  | f + 1, s =>
    match skipWs s with
    | ']' :: r => some ([], r)
    | ',' :: r =>
      match parseVal f r with
      | none => none
      | some (v, r2) =>
        match parseArrTail f r2 with
        | none => none
        | some (vs, r3) => some (v :: vs, r3)
    | _ => none
/-- Parse the object members after the first: either the closing brace, or a
comma followed by a member and more members. -/
def parseObjTail : Nat → Chars → Option (List (Chars × Jval) × Chars)
  | 0, _ => none
  | f + 1, s =>
    match skipWs s with
    | '\x7d' :: r => some ([], r)
    | ',' :: r =>
      match parseMember f r with
      | none => none
      | some (m, r2) =>
        match parseObjTail f r2 with
        | none => none
        | some (ms, r3) => some (m :: ms, r3)
    | _ => none
end

/-- Full-input JSON parse, as Go `json.Unmarshal` validates its input: one
value, optionally surrounded by whitespace, with nothing after it. -/
def parseJson (s : Chars) : Option Jval :=
  match parseVal (s.length + 1) s with
  | none => none
  | some (v, rest) => if skipWs rest = [] then some v else none

/-- Case-folded comparison of a JSON key with a struct field name, as Go's
decoder falls back to a case-insensitive match. -/
def eqFold (a b : Chars) : Bool := a.map Char.toLower == b.map Char.toLower

/-- Key match for a struct field: exact tag match, or case-insensitive. -/
def matchesKey (field k : Chars) : Bool := k == field || eqFold k field

/-- The `noticeObject` struct: noticeType and timestamp decoded as strings,
data kept raw (`none` models a nil RawMessage for an absent field). -/
structure noticeObject where
  noticeType : Chars
  data : Option Jval
  timestamp : Chars

/-- Apply one parsed member to the `noticeObject` being decoded, as Go's
object decoding does: match the key against the field tags, check the
value's type (null is a no-op; a RawMessage field accepts any value), and
ignore unknown keys. -/
def applyNoticeField (o : noticeObject) (kv : Chars × Jval) :
    Option noticeObject :=
  if matchesKey (("noticeType").data) kv.1 then
    match kv.2 with
    | .null => some o
    | .str s => some ⟨s, o.data, o.timestamp⟩
    | _ => none
  else if matchesKey (("data").data) kv.1 then
    some ⟨o.noticeType, some kv.2, o.timestamp⟩
  else if matchesKey (("timestamp").data) kv.1 then
    match kv.2 with
    | .null => some o
    | .str s => some ⟨o.noticeType, o.data, s⟩
    | _ => none
  else some o

/-- Go `json.Unmarshal(notice, &object)` for `noticeObject`: a full syntax
check of the input, then a decode accepting null (leaving the zero object)
or an object whose members are folded into the fields; any other top-level
value is a type error. -/
def decodeNoticeObject (s : Chars) : Option noticeObject :=
  match parseJson s with
  | none => none
  | some .null => some ⟨[], none, []⟩
  | some (.obj ms) => ms.foldlM applyNoticeField ⟨[], none, []⟩
  | some _ => none

/-- Decimal digit accumulation for ParseInt. -/
def digitsVal : Nat → Chars → Option Nat
  | acc, [] => some acc
  | acc, c :: r =>
    if c.isDigit then digitsVal (acc * 10 + (c.toNat - 48)) r else none

/-- Go `strconv.ParseInt(s, 10, 64)`: optional sign, at least one decimal
digit, and a value fitting a signed 64-bit integer. -/
def goParseIntCore (neg : Bool) : Chars → Option Int
  | [] => none
  | t =>
    match digitsVal 0 t with
    | none => none
    | some m =>
      let v : Int := if neg then -(m : Int) else (m : Int)
      if -(2 ^ 63) ≤ v ∧ v ≤ 2 ^ 63 - 1 then some v else none

/-- Signed entry point of ParseInt. -/
def goParseInt : Chars → Option Int
  | [] => none
  | '-' :: r => goParseIntCore true r
  | '+' :: r => goParseIntCore false r
  | s => goParseIntCore false s

/-- Key match for the count field of the tunnelsPayload struct. -/
def matchesCount (k : Chars) : Bool := matchesKey (("count").data) k

/-- Fold one member into the tunnelsPayload count, as Go decodes the data
object into the struct: a number literal goes through ParseInt, null is a
no-op, any other value type for count is an unmarshal error, and other keys
are ignored. -/
def applyCount (acc : Int) (kv : Chars × Jval) : Option Int :=
  if matchesCount kv.1 then
    match kv.2 with
    | .null => some acc
    | .num lit => goParseInt lit
    | _ => none
  else some acc

/-- Go `json.Unmarshal(object.Data, &payload)` for tunnelsPayload: a nil
RawMessage is a syntax error, null leaves the zero struct, an object is
folded member by member, anything else is a type error. -/
def unmarshalTunnels : Option Jval → Option Int
  | none => none
  | some .null => some 0
  | some (.obj ms) => ms.foldlM applyCount 0
  | some _ => none

/-- Model of `GetNoticeTunnels`: decode the notice bytes, check the
noticeType, then decode the count payload; every failure path returns
the pair of zero and false. -/
def GetNoticeTunnels (notice : Chars) : Int × Bool :=
  match decodeNoticeObject notice with
  | none => (0, false)
  | some o =>
    if o.noticeType ≠ (("Tunnels").data) then (0, false)
    else
      match unmarshalTunnels o.data with
      | none => (0, false)
      | some count => (count, true)

theorem foldlM_applyCount_skip (ms : List (Chars × Jval)) (acc : Int)
    (h : ∀ kv ∈ ms, matchesCount kv.1 = false) :
    ms.foldlM applyCount acc = some acc := by
  induction ms with
  | nil => rfl
  | cons kv r ih =>
    have h1 : matchesCount kv.1 = false := h kv (by simp)
    simp only [List.foldlM_cons, applyCount, h1, Bool.false_eq_true, if_false,
      Option.bind_eq_bind, Option.some_bind]
    exact ih (fun kv hkv => h kv (by simp [hkv]))

/-- C3: for every input byte sequence, `GetNoticeTunnels` returns zero and
false when the bytes fail to decode as a notice or when the noticeType is
not Tunnels; and for every well-formed Tunnels record — one whose data
decodes to an object carrying exactly one count member, a number literal
that ParseInt accepts as n — it returns n together with true, including
when n is zero. -/
theorem getNoticeTunnels_correct :
    (∀ s, decodeNoticeObject s = none → GetNoticeTunnels s = (0, false)) ∧
    (∀ s o, decodeNoticeObject s = some o →
      o.noticeType ≠ (("Tunnels").data) → GetNoticeTunnels s = (0, false)) ∧
    (∀ s o ms₁ k lit ms₂ n, decodeNoticeObject s = some o →
      o.noticeType = (("Tunnels").data) →
      o.data = some (Jval.obj (ms₁ ++ (k, Jval.num lit) :: ms₂)) →
      matchesCount k = true →
      (∀ kv ∈ ms₁, matchesCount kv.1 = false) →
      (∀ kv ∈ ms₂, matchesCount kv.1 = false) →
      goParseInt lit = some n →
      GetNoticeTunnels s = (n, true)) := by
  refine ⟨?_, ?_, ?_⟩
  · intro s h
    unfold GetNoticeTunnels
    rw [h]
  · intro s o h hne
    unfold GetNoticeTunnels
    rw [h]
    simp [hne]
  · intro s o ms₁ k lit ms₂ n hdec htype hdata hk h1 h2 hlit
    have hm : unmarshalTunnels o.data = some n := by
      rw [hdata]
      show List.foldlM applyCount 0 (ms₁ ++ (k, Jval.num lit) :: ms₂) = some n
      rw [List.foldlM_append, foldlM_applyCount_skip ms₁ 0 h1]
      have happ : applyCount 0 (k, Jval.num lit) = some n := by
        simp [applyCount, hk, hlit]
      simp only [Option.bind_eq_bind, Option.some_bind, List.foldlM_cons, happ]
      simpa using foldlM_applyCount_skip ms₂ n h2
    unfold GetNoticeTunnels
    rw [hdec]
    simp [htype, hm]

/-- C3 witness: a concrete Tunnels record with count zero extracts zero and
true. -/
theorem getNoticeTunnels_correct_witness :
    GetNoticeTunnels
      (("\x7b\"noticeType\":\"Tunnels\",\"data\":\x7b\"count\":0\x7d\x7d").data)
      = (0, true) :=
  getNoticeTunnels_correct.2.2 _
    ⟨(("Tunnels").data), some (Jval.obj [((("count").data), Jval.num ['0'])]), []⟩
    [] (("count").data) ['0'] [] 0 (by rfl) rfl rfl (by decide)
    (by simp) (by simp) (by rfl)

/-- C2 (amended): `GetNoticeTunnels` fails closed — zero and false — on any
decode error, on kind mismatch, and on a missing data payload; but a
Tunnels record whose data object merely lacks a count member is not treated
as a missing-field failure: Go leaves the count at its zero value and the
function returns zero together with true. -/
theorem getNoticeTunnels_failClosed :
    (∀ s, decodeNoticeObject s = none → GetNoticeTunnels s = (0, false)) ∧
    (∀ s o, decodeNoticeObject s = some o →
      o.noticeType ≠ (("Tunnels").data) → GetNoticeTunnels s = (0, false)) ∧
    (∀ s o, decodeNoticeObject s = some o → o.data = none →
      GetNoticeTunnels s = (0, false)) ∧
    (∀ s o ms, decodeNoticeObject s = some o →
      o.noticeType = (("Tunnels").data) →
      o.data = some (Jval.obj ms) →
      (∀ kv ∈ ms, matchesCount kv.1 = false) →
      GetNoticeTunnels s = (0, true)) := by
  refine ⟨?_, ?_, ?_, ?_⟩
  · intro s h
    unfold GetNoticeTunnels
    rw [h]
  · intro s o h hne
    unfold GetNoticeTunnels
    rw [h]
    simp [hne]
  · intro s o h hdata
    have hm : unmarshalTunnels o.data = none := by rw [hdata]; rfl
    unfold GetNoticeTunnels
    rw [h]
    by_cases hne : o.noticeType = (("Tunnels").data) <;> simp [hne, hm]
  · intro s o ms h htype hdata hms
    have hm : unmarshalTunnels o.data = some 0 := by
      rw [hdata]
      show List.foldlM applyCount 0 ms = some 0
      exact foldlM_applyCount_skip ms 0 hms
    unfold GetNoticeTunnels
    rw [h]
    simp [htype, hm]

/-- C2 counterexample: a well-formed Tunnels record whose data payload lacks
the count field does not yield false; Go's decode leaves the count at its
zero value and the extraction reports zero with true. -/
theorem getNoticeTunnels_missingCount_counterexample :
    GetNoticeTunnels
      (("\x7b\"noticeType\":\"Tunnels\",\"data\":\x7b\x7d\x7d").data)
      = (0, true) := by
  rfl

/-- C2 witness: a concrete kind mismatch — an Info record — extracts zero
and false. -/
theorem getNoticeTunnels_failClosed_witness :
    GetNoticeTunnels
      (("\x7b\"noticeType\":\"Info\",\"data\":\x7b\"message\":\"hi\"\x7d\x7d").data)
      = (0, false) :=
  getNoticeTunnels_failClosed.2.1 _
    ⟨(("Info").data),
      some (Jval.obj [((("message").data), Jval.str (("hi").data))]), []⟩
    (by rfl) (by decide)

/-- C5: evaluating the fallback path at the failing input. When the
serialization error text contains a double quote, the hand-built fallback
record — the error text interpolated without escaping — does not parse as a
record at all, so the fallback line is not valid for every possible
error-message string. -/
theorem noticeFallbackOutput_invalid_on_quote :
    parseJson (noticeFallbackOutput ['"']) = none := by
  rfl

/-- C6: evaluating the fallback path at the failing input. When the
serialization error text contains a newline byte, the serialized fallback
record itself contains a literal unescaped newline, breaking the
one-record-per-line invariant on the fallback path. -/
theorem noticeFallbackOutput_embeds_newline :
    '\n' ∈ noticeFallbackOutput [('x'), ('\n'), ('y')] := by
  decide

theorem isWs_cases (c : Char) (h : isWs c = true) :
    c = ' ' ∨ c = '\t' ∨ c = '\n' ∨ c = '\r' := by
  simp only [isWs, Bool.or_eq_true, beq_iff_eq] at h
  tauto

theorem hexVal_hexDigit : ∀ n < 16, hexVal (hexDigit n) = some n := by
  decide

theorem skipWs_not_ws (c : Char) (r : Chars) (h : isWs c = false) :
    skipWs (c :: r) = c :: r := by
  simp [skipWs, h]

theorem digit_not_ws (c : Char) (h : c.isDigit = true) : isWs c = false := by
  cases hws : isWs c with
  | false => rfl
  | true =>
    rcases isWs_cases c hws with rfl | rfl | rfl | rfl <;> simp at h

theorem parseStrBody_escList (s : Chars) :
    ∀ f rest, (escList s).length < f →
      parseStrBody f (escList s ++ ('"') :: rest) = some (s, rest) := by
  induction s with
  | nil =>
    intro f rest hf
    obtain ⟨f1, rfl⟩ : ∃ f1, f = f1 + 1 := ⟨f - 1, by omega⟩
    simp [parseStrBody, escList]
  | cons c cs ih =>
    intro f rest hf
    rw [escList] at hf ⊢
    by_cases h1 : c = '"'
    · subst h1
      rw [show escChar '"' = ['\\', '"'] from rfl] at hf ⊢
      obtain ⟨f2, rfl⟩ : ∃ f2, f = f2 + 2 := ⟨f - 2, by simp at hf; omega⟩
      have hih := ih f2 rest (by simp at hf; omega)
      simp [parseStrBody, parseEsc, hih]
    · by_cases h2 : c = '\\'
      · subst h2
        rw [show escChar '\\' = ['\\', '\\'] from rfl] at hf ⊢
        obtain ⟨f2, rfl⟩ : ∃ f2, f = f2 + 2 := ⟨f - 2, by simp at hf; omega⟩
        have hih := ih f2 rest (by simp at hf; omega)
        simp [parseStrBody, parseEsc, hih]
      · by_cases h3 : c = '\n'
        · subst h3
          rw [show escChar '\n' = ['\\', 'n'] from rfl] at hf ⊢
          obtain ⟨f2, rfl⟩ : ∃ f2, f = f2 + 2 := ⟨f - 2, by simp at hf; omega⟩
          have hih := ih f2 rest (by simp at hf; omega)
          simp [parseStrBody, parseEsc, hih]
        · by_cases h4 : c = '\r'
          · subst h4
            rw [show escChar '\r' = ['\\', 'r'] from rfl] at hf ⊢
            obtain ⟨f2, rfl⟩ : ∃ f2, f = f2 + 2 := ⟨f - 2, by simp at hf; omega⟩
            have hih := ih f2 rest (by simp at hf; omega)
            simp [parseStrBody, parseEsc, hih]
          · by_cases h5 : c = '\t'
            · subst h5
              rw [show escChar '\t' = ['\\', 't'] from rfl] at hf ⊢
              obtain ⟨f2, rfl⟩ : ∃ f2, f = f2 + 2 := ⟨f - 2, by simp at hf; omega⟩
              have hih := ih f2 rest (by simp at hf; omega)
              simp [parseStrBody, parseEsc, hih]
            · by_cases h6 : c = '<' ∨ c = '>' ∨ c = '&' ∨ c.toNat < 32
              · have hesc : escChar c =
                    ['\\', 'u', '0', '0', hexDigit (c.toNat / 16),
                      hexDigit (c.toNat % 16)] := by
                  simp [escChar, h1, h2, h3, h4, h5, h6]
                have h256 : c.toNat < 256 := by
                  rcases h6 with rfl | rfl | rfl | h
                  · decide
                  · decide
                  · decide
                  · omega
                rw [hesc] at hf ⊢
                obtain ⟨f2, rfl⟩ : ∃ f2, f = f2 + 2 := ⟨f - 2, by simp at hf; omega⟩
                have hih := ih f2 rest (by simp at hf; omega)
                have hx : hex4 '0' '0' (hexDigit (c.toNat / 16))
                    (hexDigit (c.toNat % 16)) = some c.toNat := by
                  simp only [hex4, hexVal_hexDigit (c.toNat / 16) (by omega),
                    hexVal_hexDigit (c.toNat % 16) (by omega),
                    show hexVal '0' = some 0 from rfl, Option.some.injEq]
                  omega
                have hlow : ¬(55296 ≤ c.toNat ∧ c.toNat ≤ 56319) := by omega
                have hlow2 : ¬(56320 ≤ c.toNat ∧ c.toNat ≤ 57343) := by omega
                simp [parseStrBody, parseEsc, hx, hlow, hlow2, hih,
                  Char.ofNat_toNat]
              · by_cases h7 : c.toNat = 8232 ∨ c.toNat = 8233
                · rcases h7 with h7 | h7
                  · have hc : c = Char.ofNat 8232 := by
                      rw [← Char.ofNat_toNat c, h7]
                    subst hc
                    rw [show escChar (Char.ofNat 8232) =
                        ['\\', 'u', '2', '0', '2', '8'] from rfl] at hf ⊢
                    obtain ⟨f2, rfl⟩ : ∃ f2, f = f2 + 2 :=
                      ⟨f - 2, by simp at hf; omega⟩
                    have hih := ih f2 rest (by simp at hf; omega)
                    have hx : hex4 '2' '0' '2' '8' = some 8232 := by decide
                    have hlow : ¬(55296 ≤ 8232 ∧ 8232 ≤ 56319) := by omega
                    have hlow2 : ¬(56320 ≤ 8232 ∧ 8232 ≤ 57343) := by omega
                    simp [parseStrBody, parseEsc, hx, hlow, hlow2, hih]
                  · have hc : c = Char.ofNat 8233 := by
                      rw [← Char.ofNat_toNat c, h7]
                    subst hc
                    rw [show escChar (Char.ofNat 8233) =
                        ['\\', 'u', '2', '0', '2', '9'] from rfl] at hf ⊢
                    obtain ⟨f2, rfl⟩ : ∃ f2, f = f2 + 2 :=
                      ⟨f - 2, by simp at hf; omega⟩
                    have hih := ih f2 rest (by simp at hf; omega)
                    have hx : hex4 '2' '0' '2' '9' = some 8233 := by decide
                    have hlow : ¬(55296 ≤ 8233 ∧ 8233 ≤ 56319) := by omega
                    have hlow2 : ¬(56320 ≤ 8233 ∧ 8233 ≤ 57343) := by omega
                    simp [parseStrBody, parseEsc, hx, hlow, hlow2, hih]
                · have hesc : escChar c = [c] := by
                    simp [escChar, h1, h2, h3, h4, h5, h6, h7]
                  have hc32 : ¬(c.toNat < 32) := by tauto
                  rw [hesc] at hf ⊢
                  obtain ⟨f2, rfl⟩ : ∃ f2, f = f2 + 1 := ⟨f - 1, by simp at hf; omega⟩
                  have hih := ih f2 rest (by simp at hf; omega)
                  simp [parseStrBody, h1, h2, hc32, hih]

/-- Characters that may legitimately follow a serialized value inside a
record: nothing, a separator, a closing bracket, or whitespace. -/
def stopChar : Chars → Prop
  | [] => True
  | c :: _ => c = ',' ∨ c = ('\x7d') ∨ c = ']' ∨ isWs c = true

theorem stopChar_head (c : Char) (t : Chars) (h : stopChar (c :: t)) :
    c.isDigit = false ∧ c ≠ '.' ∧ c ≠ 'e' ∧ c ≠ 'E' := by
  rcases h with rfl | rfl | rfl | hws
  · decide
  · decide
  · decide
  · rcases isWs_cases c hws with rfl | rfl | rfl | rfl <;> decide

theorem takeDigits_stop (rest : Chars) (h : stopChar rest) :
    takeDigits rest = ([], rest) := by
  cases rest with
  | nil => rfl
  | cons c t =>
    have h1 := (stopChar_head c t h).1
    simp [takeDigits, h1]

theorem lexFrac_stop (rest : Chars) (h : stopChar rest) :
    lexFrac rest = some ([], rest) := by
  cases rest with
  | nil => rfl
  | cons c t =>
    have h2 := (stopChar_head c t h).2.1
    simp [lexFrac, h2]

theorem lexExp_stop (rest : Chars) (h : stopChar rest) :
    lexExp rest = some ([], rest) := by
  cases rest with
  | nil => rfl
  | cons c t =>
    obtain ⟨-, -, h3, h4⟩ := stopChar_head c t h
    simp [lexExp, h3, h4]

theorem digitChar_isDigit : ∀ n < 10, (digitChar n).isDigit = true := by
  decide

theorem digitChar_eq_zero : ∀ n < 10, (digitChar n = '0' ↔ n = 0) := by
  decide

theorem natLit_shape (n : Nat) :
    ∃ d t, natLit n = d :: t ∧ d.isDigit = true ∧
      (∀ c ∈ t, c.isDigit = true) ∧ (d = '0' → n = 0) := by
  induction n using natLit.induct with
  | case1 n h =>
    refine ⟨digitChar n, [], ?_, digitChar_isDigit n h, by simp, ?_⟩
    · simp [natLit, h]
    · exact fun hd => (digitChar_eq_zero n h).mp hd
  | case2 n h ih =>
    obtain ⟨d, t, heq, hd, ht, hz⟩ := ih
    refine ⟨d, t ++ [digitChar (n % 10)], ?_, hd, ?_, ?_⟩
    · simp [natLit, h, heq]
    · intro c hc
      rcases List.mem_append.mp hc with hc | hc
      · exact ht c hc
      · simp only [List.mem_singleton] at hc
        subst hc
        exact digitChar_isDigit (n % 10) (Nat.mod_lt _ (by omega))
    · intro hdz
      have := hz hdz
      omega

theorem takeDigits_append (ds rest : Chars) (hds : ∀ c ∈ ds, c.isDigit = true)
    (hstop0 : takeDigits rest = ([], rest)) :
    takeDigits (ds ++ rest) = (ds, rest) := by
  induction ds with
  | nil => simpa using hstop0
  | cons d t ih =>
    have hd : d.isDigit = true := hds d (by simp)
    have ht := ih (fun c hc => hds c (by simp [hc]))
    simp [takeDigits, hd, ht]

theorem lexNumBody_natLit (n : Nat) (rest : Chars) (h : stopChar rest) :
    lexNumBody (natLit n ++ rest) = some (natLit n, rest) := by
  by_cases hn : n = 0
  · subst hn
    have h0 : natLit 0 = [digitChar 0] := by simp [natLit]
    have h0z : [digitChar 0] = ['0'] := by decide
    rw [h0, h0z]
    simp [lexNumBody, lexIntPart, lexFrac_stop rest h, lexExp_stop rest h]
  · obtain ⟨d, t, heq, hd, ht, hz⟩ := natLit_shape n
    have hdz : d ≠ '0' := fun hdd => hn (hz hdd)
    rw [heq]
    have htk : takeDigits (t ++ rest) = (t, rest) :=
      takeDigits_append t rest ht (takeDigits_stop rest h)
    simp [lexNumBody, lexIntPart, hdz, hd, htk, lexFrac_stop rest h,
      lexExp_stop rest h]

theorem lexNumber_intLit (n : Int) (rest : Chars) (h : stopChar rest) :
    lexNumber (intLit n ++ rest) = some (intLit n, rest) := by
  by_cases hneg : n < 0
  · rw [intLit, if_pos hneg]
    simp [lexNumber, lexNumBody_natLit (-n).toNat rest h]
  · rw [intLit, if_neg hneg]
    obtain ⟨d, t, heq, hd, ht, hz⟩ := natLit_shape n.toNat
    have hdm : d ≠ '-' := by
      intro hh
      rw [hh] at hd
      simp at hd
    have hb := lexNumBody_natLit n.toNat rest h
    rw [heq] at hb ⊢
    simp only [List.cons_append] at hb
    simp [lexNumber, hdm, hb]

/-- A value's serialization parses back to the value, at every fuel of at
least the stated bound and before every legitimate continuation. -/
def ParsesAt (v : Jval) (fv : Nat) : Prop :=
  ∀ f rest, fv ≤ f → stopChar rest →
    parseVal f (marshal v ++ rest) = some (v, rest)

theorem ParsesAt_mono (v : Jval) (fv fv' : Nat) (h : ParsesAt v fv)
    (hle : fv ≤ fv') : ParsesAt v fv' :=
  fun f rest hf hr => h f rest (by omega) hr

theorem digit_head_facts (c : Char) (h : c.isDigit = true) :
    isWs c = false ∧ c ≠ 'n' ∧ c ≠ 't' ∧ c ≠ 'f' ∧ c ≠ '"' := by
  refine ⟨digit_not_ws c h, ?_, ?_, ?_, ?_⟩ <;>
    · intro hh
      rw [hh] at h
      exact absurd h (by decide)

theorem parsesAt_str (s : Chars) : ParsesAt (.str s) 1 := by
  intro f rest hf _hr
  obtain ⟨f1, rfl⟩ : ∃ f1, f = f1 + 1 := ⟨f - 1, by omega⟩
  have hm : marshal (.str s) = quoteStr s := by simp [marshal]
  rw [hm, quoteStr]
  have hsb := parseStrBody_escList s
    ((escList s ++ ('"') :: rest).length + 1) rest
    (by simp only [List.length_append, List.length_cons]; omega)
  simp only [List.length_append, List.length_cons] at hsb
  simp only [List.cons_append, List.append_assoc, List.singleton_append]
  simp [parseVal, skipWs, isWs, hsb]

theorem parsesAt_bool (b : Bool) : ParsesAt (.bool b) 1 := by
  intro f rest hf _hr
  obtain ⟨f1, rfl⟩ : ∃ f1, f = f1 + 1 := ⟨f - 1, by omega⟩
  cases b <;> simp [marshal, parseVal, skipWs, isWs]

theorem parsesAt_int (n : Int) : ParsesAt (.num (intLit n)) 1 := by
  intro f rest hf hr
  obtain ⟨f1, rfl⟩ : ∃ f1, f = f1 + 1 := ⟨f - 1, by omega⟩
  have hlex := lexNumber_intLit n rest hr
  have hm : marshal (.num (intLit n)) = intLit n := by simp [marshal]
  rw [hm]
  by_cases hneg : n < 0
  · rw [intLit, if_pos hneg] at hlex ⊢
    simp only [List.cons_append] at hlex
    simp [parseVal, skipWs, isWs, hlex]
  · rw [intLit, if_neg hneg] at hlex ⊢
    obtain ⟨d, t, heq, hd, ht, hz⟩ := natLit_shape n.toNat
    rw [heq] at hlex ⊢
    simp only [List.cons_append] at hlex
    obtain ⟨hws, hn2, ht2, hf2, hq2⟩ := digit_head_facts d hd
    simp [parseVal, skipWs, hws, hn2, ht2, hf2, hq2, hd, hlex]

theorem parsesAt_goIf (g : GoIf) : ParsesAt (goIfToJval g) 1 := by
  cases g with
  | str s => exact parsesAt_str s
  | int n => exact parsesAt_int n

theorem parseMember_quoted (k : Chars) (v : Jval) (fv : Nat)
    (hv : ParsesAt v fv) :
    ∀ f rest, fv + 1 ≤ f → stopChar rest →
      parseMember f (quoteStr k ++ ':' :: (marshal v ++ rest)) =
        some ((k, v), rest) := by
  intro f rest hf hr
  obtain ⟨f1, rfl⟩ : ∃ f1, f = f1 + 1 := ⟨f - 1, by omega⟩
  have hsb := parseStrBody_escList k
    ((escList k ++ ('"') :: (':' :: (marshal v ++ rest))).length + 1)
    (':' :: (marshal v ++ rest))
    (by simp only [List.length_append, List.length_cons]; omega)
  simp only [List.length_append, List.length_cons] at hsb
  have hval := hv f1 rest (by omega) hr
  simp only [quoteStr, List.cons_append, List.append_assoc,
    List.singleton_append]
  simp [parseMember, skipWs, isWs, hsb, hval]

theorem stopChar_marshalObjTail (ms : List (Chars × Jval)) (rest : Chars) :
    stopChar (marshalObjTail ms ++ rest) := by
  cases ms with
  | nil =>
    simp only [marshalObjTail, List.cons_append, List.nil_append]
    exact Or.inr (Or.inl rfl)
  | cons m ms =>
    obtain ⟨k, v⟩ := m
    simp only [marshalObjTail, List.cons_append]
    exact Or.inl rfl

theorem parseObjTail_members (fv : Nat) (ms : List (Chars × Jval))
    (hms : ∀ m ∈ ms, ParsesAt m.2 fv) :
    ∀ f rest, fv + ms.length + 2 ≤ f → stopChar rest →
      parseObjTail f (marshalObjTail ms ++ rest) = some (ms, rest) := by
  induction ms with
  | nil =>
    intro f rest hf hr
    obtain ⟨f1, rfl⟩ : ∃ f1, f = f1 + 1 := ⟨f - 1, by omega⟩
    simp [marshalObjTail, parseObjTail, skipWs, isWs]
  | cons m ms ih =>
    obtain ⟨k, v⟩ := m
    intro f rest hf hr
    simp only [List.length_cons] at hf
    obtain ⟨f1, rfl⟩ : ∃ f1, f = f1 + 1 := ⟨f - 1, by omega⟩
    have hstop := stopChar_marshalObjTail ms rest
    have hmem := parseMember_quoted k v fv (hms (k, v) (by simp)) f1
      (marshalObjTail ms ++ rest) (by omega) hstop
    have htail := ih (fun m hm => hms m (by simp [hm])) f1 rest
      (by omega) hr
    simp only [marshalObjTail, List.cons_append, List.append_assoc]
    simp only [List.append_assoc] at hmem
    simp [parseObjTail, skipWs, isWs, hmem, htail]

theorem parsesAt_obj (fv : Nat) (ms : List (Chars × Jval))
    (hms : ∀ m ∈ ms, ParsesAt m.2 fv) :
    ParsesAt (.obj ms) (fv + ms.length + 3) := by
  intro f rest hf hr
  obtain ⟨f1, rfl⟩ : ∃ f1, f = f1 + 1 := ⟨f - 1, by omega⟩
  cases ms with
  | nil =>
    simp [marshal, parseVal, skipWs, isWs]
  | cons m ms =>
    obtain ⟨k, v⟩ := m
    simp only [List.length_cons] at hf
    have hstop := stopChar_marshalObjTail ms rest
    have hmem := parseMember_quoted k v fv (hms (k, v) (by simp)) f1
      (marshalObjTail ms ++ rest) (by omega) hstop
    have htail := parseObjTail_members fv ms (fun m hm => hms m (by simp [hm]))
      f1 rest (by omega) hr
    simp only [marshal, List.cons_append, List.append_assoc]
    simp only [quoteStr, List.cons_append, List.append_assoc,
      List.singleton_append, List.nil_append] at hmem
    simp [parseVal, skipWs, isWs, quoteStr, hmem, htail]

theorem sortEntries_notice (a b c d : Jval) :
    sortEntries
      [((("noticeType").data), a), ((("showUser").data), b),
       ((("data").data), c), ((("timestamp").data), d)] =
      [((("data").data), c), ((("noticeType").data), a),
       ((("showUser").data), b), ((("timestamp").data), d)] := by
  rfl

theorem insertOv_append (acc : List (Chars × Jval)) (k : Chars) (v : Jval)
    (h : ∀ m ∈ acc, m.1 ≠ k) : insertOv acc k v = acc ++ [(k, v)] := by
  induction acc with
  | nil => rfl
  | cons m r ih =>
    obtain ⟨k0, v0⟩ := m
    have hne : k0 ≠ k := h (k0, v0) (by simp)
    simp [insertOv, hne, ih (fun m hm => h m (by simp [hm]))]

/-- The variadic argument list produced by a typed notice wrapper: field
names and values alternate. -/
def flattenFields : List (Chars × GoIf) → List GoIf
  | [] => []
  | q :: rest => GoIf.str q.1 :: q.2 :: flattenFields rest

theorem buildNoticeData_flatten (fields : List (Chars × GoIf)) :
    ∀ acc, (fields.map Prod.fst).Nodup →
      (∀ q ∈ fields, ∀ m ∈ acc, m.1 ≠ q.1) →
      buildNoticeData (flattenFields fields) acc =
        acc ++ fields.map (fun q => (q.1, goIfToJval q.2)) := by
  induction fields with
  | nil =>
    intro acc _ _
    simp [flattenFields, buildNoticeData]
  | cons q fields ih =>
    obtain ⟨k, g⟩ := q
    intro acc hnd hdisj
    simp only [List.map_cons, List.nodup_cons, List.mem_map] at hnd
    have hkacc : ∀ m ∈ acc, m.1 ≠ k :=
      fun m hm => hdisj (k, g) (by simp) m hm
    have hins := insertOv_append acc k (goIfToJval g) hkacc
    have hdisj2 : ∀ q2 ∈ fields, ∀ m ∈ acc ++ [(k, goIfToJval g)], m.1 ≠ q2.1 := by
      intro q2 hq2 m hm
      rcases List.mem_append.mp hm with hm | hm
      · exact hdisj q2 (by simp [hq2]) m hm
      · simp only [List.mem_singleton] at hm
        subst hm
        intro hkq
        exact hnd.1 ⟨q2, hq2, hkq.symm⟩
    have := ih (acc ++ [(k, goIfToJval g)]) hnd.2 hdisj2
    simp only [flattenFields, buildNoticeData, hins, this, List.map_cons]
    simp

theorem marshalObjTail_length (ms : List (Chars × Jval)) :
    ms.length + 1 ≤ (marshalObjTail ms).length := by
  induction ms with
  | nil => simp [marshalObjTail]
  | cons m ms ih =>
    obtain ⟨k, v⟩ := m
    have hq : 2 ≤ (quoteStr k).length := by
      simp only [quoteStr, List.length_cons, List.length_append]
      omega
    simp only [marshalObjTail, List.length_cons, List.length_append]
    omega

theorem marshalObj_length (ms : List (Chars × Jval)) :
    ms.length + 2 ≤ (marshal (Jval.obj ms)).length := by
  cases ms with
  | nil => simp [marshal]
  | cons m ms =>
    obtain ⟨k, v⟩ := m
    have h1 := marshalObjTail_length ms
    have hq : 2 ≤ (quoteStr k).length := by
      simp only [quoteStr, List.length_cons, List.length_append]
      omega
    simp only [marshal, List.length_cons, List.length_append]
    omega

theorem outputNoticeLine_parses (noticeType timestamp : Chars)
    (showUser : Bool) (de : List (Chars × Jval))
    (hde : ∀ m ∈ de, ParsesAt m.2 1) :
    parseJson (marshal (Jval.obj
        [((("data").data), Jval.obj de),
         ((("noticeType").data), Jval.str noticeType),
         ((("showUser").data), Jval.bool showUser),
         ((("timestamp").data), Jval.str timestamp)]) ++ ['\n']) =
      some (Jval.obj
        [((("data").data), Jval.obj de),
         ((("noticeType").data), Jval.str noticeType),
         ((("showUser").data), Jval.bool showUser),
         ((("timestamp").data), Jval.str timestamp)]) := by
  have h4 : ∀ m ∈ [((("data").data), Jval.obj de),
      ((("noticeType").data), Jval.str noticeType),
      ((("showUser").data), Jval.bool showUser),
      ((("timestamp").data), Jval.str timestamp)],
      ParsesAt m.2 (1 + de.length + 3) := by
    intro m hm
    simp only [List.mem_cons, List.not_mem_nil, or_false] at hm
    rcases hm with rfl | rfl | rfl | rfl
    · exact parsesAt_obj 1 de hde
    · exact ParsesAt_mono _ 1 _ (parsesAt_str _) (by omega)
    · exact ParsesAt_mono _ 1 _ (parsesAt_bool _) (by omega)
    · exact ParsesAt_mono _ 1 _ (parsesAt_str _) (by omega)
  have henv := parsesAt_obj (1 + de.length + 3) _ h4
  have h1 := marshalObj_length de
  have hlen : de.length + 9 ≤ (marshal (Jval.obj
      [((("data").data), Jval.obj de),
       ((("noticeType").data), Jval.str noticeType),
       ((("showUser").data), Jval.bool showUser),
       ((("timestamp").data), Jval.str timestamp)])).length := by
    simp only [marshal, marshalObjTail, quoteStr, List.length_cons,
      List.length_append]
    omega
  have hstop : stopChar ['\n'] := Or.inr (Or.inr (Or.inr (by decide)))
  have hp := henv ((marshal (Jval.obj
      [((("data").data), Jval.obj de),
       ((("noticeType").data), Jval.str noticeType),
       ((("showUser").data), Jval.bool showUser),
       ((("timestamp").data), Jval.str timestamp)]) ++ ['\n']).length + 1)
    ['\n']
    (by
      simp only [List.length_append, List.length_cons, List.length_nil]
      simp only [List.length_cons] at hlen ⊢
      omega)
    hstop
  unfold parseJson
  rw [hp]
  simp [skipWs, isWs]

/-- C4: for every valid emission — a kind string, a showUser flag, and a
well-paired list of distinct string field names with values from the closed
field-type set (string or int) — the line written by outputNotice parses
back to an envelope object whose noticeType, showUser, and data members
exactly equal the emission's inputs (the data object carries precisely the
input fields, as a permutation), together with the timestamp member. -/
theorem outputNotice_roundTrip (noticeType timestamp : Chars)
    (showUser : Bool) (fields : List (Chars × GoIf))
    (hnd : (fields.map Prod.fst).Nodup) :
    ∃ dataEntries : List (Chars × Jval),
      parseJson (outputNoticeLine noticeType showUser
          (flattenFields fields) timestamp) =
        some (Jval.obj
          [((("data").data), Jval.obj dataEntries),
           ((("noticeType").data), Jval.str noticeType),
           ((("showUser").data), Jval.bool showUser),
           ((("timestamp").data), Jval.str timestamp)]) ∧
      dataEntries.Perm (fields.map (fun q => (q.1, goIfToJval q.2))) := by
  have hb := buildNoticeData_flatten fields [] hnd (by simp)
  refine ⟨sortEntries (buildNoticeData (flattenFields fields) []), ?_, ?_⟩
  · have hmem : ∀ m ∈ sortEntries (buildNoticeData (flattenFields fields) []),
        ParsesAt m.2 1 := by
      intro m hm
      have hm2 := (sortEntries_perm _).mem_iff.mp hm
      rw [hb] at hm2
      simp only [List.nil_append, List.mem_map] at hm2
      obtain ⟨q, hq, rfl⟩ := hm2
      exact parsesAt_goIf q.2
    have hparse := outputNoticeLine_parses noticeType timestamp showUser _ hmem
    unfold outputNoticeLine outputNoticeObj
    rw [sortEntries_notice]
    exact hparse
  · rw [hb]
    simpa using sortEntries_perm (fields.map (fun q => (q.1, goIfToJval q.2)))

/-- C4 witness: a concrete CandidateServers emission round-trips. -/
theorem outputNotice_roundTrip_witness :
    ∃ dataEntries : List (Chars × Jval),
      parseJson (outputNoticeLine (("CandidateServers").data) false
          (flattenFields
            [((("region").data), GoIf.str (("US").data)),
             ((("protocol").data), GoIf.str (("SSH").data)),
             ((("count").data), GoIf.int 3)])
          (("2015-01-28T17:35:13Z").data)) =
        some (Jval.obj
          [((("data").data), Jval.obj dataEntries),
           ((("noticeType").data), Jval.str (("CandidateServers").data)),
           ((("showUser").data), Jval.bool false),
           ((("timestamp").data),
             Jval.str (("2015-01-28T17:35:13Z").data))]) ∧
      dataEntries.Perm
        (List.map (fun q => (q.1, goIfToJval q.2))
          [((("region").data), GoIf.str (("US").data)),
           ((("protocol").data), GoIf.str (("SSH").data)),
           ((("count").data), GoIf.int 3)]) :=
  outputNotice_roundTrip (("CandidateServers").data)
    (("2015-01-28T17:35:13Z").data) false
    [((("region").data), GoIf.str (("US").data)),
     ((("protocol").data), GoIf.str (("SSH").data)),
     ((("count").data), GoIf.int 3)] (by decide)
